import Mathlib

/-!
Verification development for the streaming delta assembler of the
Company-Research-Agent chat client.

The embedding follows the source files:
  frontend/src/api.ts  (askQuestionStream, processLine)
  frontend/src/App.tsx (addSpaceBetweenWords, the block assembler inside
                        handleSendWithAudio's onChunk callback)

Text is modelled as List Char.  JavaScript strings, regular expressions and
JSON.parse are modelled by executable Lean functions on List Char; the
modelling notes next to each definition record the correspondence.
-/

namespace S2P

/-- Abbreviation turning a Lean string literal into the List Char text model. -/
def str (s : String) : List Char := s.data

/-- Left brace character, written via its code point. -/
def lbrace : Char := Char.ofNat 123

/-- Right brace character, written via its code point. -/
def rbrace : Char := Char.ofNat 125

/-- ASCII lowercase letter test, as the regex class a-z. -/
def isLowerAZ (c : Char) : Bool := 'a' ≤ c && c ≤ 'z'

/-- ASCII uppercase letter test, as the regex class A-Z. -/
def isUpperAZ (c : Char) : Bool := 'A' ≤ c && c ≤ 'Z'

/-- ASCII digit test, as the regex class 0-9. -/
def isDigitAZ (c : Char) : Bool := '0' ≤ c && c ≤ '9'

/-- ASCII alphanumeric test, as the regex class a-zA-Z0-9 used by the
needsSpace check in App.tsx. -/
def isAlnum (c : Char) : Bool := isLowerAZ c || isUpperAZ c || isDigitAZ c

/-- ASCII letter test, what the class a-z matches under a regex i flag. -/
def isLetterAZ (c : Char) : Bool := isLowerAZ c || isUpperAZ c

/-- Lowercasing of an ASCII letter, for case-insensitive regex matching. -/
def lowerAZ (c : Char) : Char :=
  if isUpperAZ c then Char.ofNat (c.toNat + 32) else c

/-- Whitespace recognized by the model of String.prototype.trim (the ASCII
whitespace actually occurring in this protocol). -/
def isWsChar (c : Char) : Bool := c = ' ' || c = '\n' || c = '\t' || c = '\r'

/-- Drop leading whitespace. -/
def trimLeft : List Char → List Char
  | [] => []
  | c :: cs => if isWsChar c then trimLeft cs else c :: cs

/-- Model of JavaScript String.prototype.trim. -/
def trimList (s : List Char) : List Char :=
  ((trimLeft ((trimLeft s).reverse)).reverse)

/-- Does `p` occur at the start of `s`?  Model of String.prototype.startsWith
restricted to the pattern being a plain string. -/
def startsWithL : List Char → List Char → Bool
  | [], _ => true
  | _ :: _, [] => false
  | p :: ps, c :: cs => p == c && startsWithL ps cs

/-- Split `s` at the first occurrence of the pattern `p`: returns the text
before the occurrence and the text after it.  Model of String.prototype.indexOf
followed by slicing.  Returns none when `p` does not occur. -/
def splitOnce (p : List Char) : List Char → Option (List Char × List Char)
  | [] => if p.isEmpty then some ([], []) else none
  | c :: cs =>
    if startsWithL p (c :: cs) then some ([], (c :: cs).drop p.length)
    else (splitOnce p cs).map fun q => (c :: q.1, q.2)

/-- Does the pattern `p` occur anywhere in `s`?  Model of
String.prototype.includes. -/
def containsSub (p s : List Char) : Bool := (splitOnce p s).isSome

theorem splitOnce_some_length (p : List Char) (hp : p ≠ []) :
    ∀ s a b, splitOnce p s = some (a, b) → b.length < s.length := by
  intro s
  induction s with
  | nil =>
    intro a b h
    simp only [splitOnce] at h
    have hpe : p.isEmpty = false := by
      cases p with
      | nil => exact absurd rfl hp
      | cons _ _ => rfl
    rw [hpe] at h
    simp at h
  | cons c cs ih =>
    intro a b h
    simp only [splitOnce] at h
    by_cases hs : startsWithL p (c :: cs) = true
    · rw [if_pos hs] at h
      have hb : b = (c :: cs).drop p.length := by
        have h2 := (Option.some.injEq _ _).mp h
        exact (congrArg Prod.snd h2).symm
      subst hb
      have hppos : 0 < p.length := List.length_pos.mpr hp
      simp only [List.length_drop, List.length_cons]
      omega
    · rw [if_neg hs] at h
      cases hrec : splitOnce p cs with
      | none => rw [hrec] at h; simp at h
      | some q =>
        rw [hrec] at h
        obtain ⟨a', b'⟩ := q
        simp only [Option.map_some', Option.some.injEq, Prod.mk.injEq] at h
        obtain ⟨_, hb⟩ := h
        subst hb
        have := ih a' b' hrec
        simp only [List.length_cons]
        omega

/-!
JSON values.  The payload of a data frame is parsed by JSON.parse in
processLine (api.ts line 154); the parsed value is an arbitrary JSON value.
Numbers are modelled as integers: the protocol's only numeric fields are
tool indices, which are integers (fractional or exponent-form numbers do not
occur in this protocol and are out of the model's scope).
-/
inductive Json where
  | null : Json
  | bool (b : Bool) : Json
  | num (n : Int) : Json
  | str (s : List Char) : Json
  | arr (elems : List Json) : Json
  | obj (fields : List (List Char × Json)) : Json

mutual

/-- Decidable equality of JSON values (written by hand because deriving does
not handle the nested inductive). -/
def Json.decEq : (a b : Json) → Decidable (a = b)
  | .null, .null => isTrue rfl
  | .bool a, .bool b =>
    if h : a = b then isTrue (by rw [h]) else
      isFalse (by intro hc; injection hc; contradiction)
  | .num a, .num b =>
    if h : a = b then isTrue (by rw [h]) else
      isFalse (by intro hc; injection hc; contradiction)
  | .str a, .str b =>
    if h : a = b then isTrue (by rw [h]) else
      isFalse (by intro hc; injection hc; contradiction)
  | .arr xs, .arr ys =>
    match Json.decEqList xs ys with
    | isTrue h => isTrue (by rw [h])
    | isFalse h => isFalse (by intro hc; injection hc; contradiction)
  | .obj xs, .obj ys =>
    match Json.decEqFields xs ys with
    | isTrue h => isTrue (by rw [h])
    | isFalse h => isFalse (by intro hc; injection hc; contradiction)
  | .null, .bool _ => isFalse (fun h => nomatch h)
  | .null, .num _ => isFalse (fun h => nomatch h)
  | .null, .str _ => isFalse (fun h => nomatch h)
  | .null, .arr _ => isFalse (fun h => nomatch h)
  | .null, .obj _ => isFalse (fun h => nomatch h)
  | .bool _, .null => isFalse (fun h => nomatch h)
  | .bool _, .num _ => isFalse (fun h => nomatch h)
  | .bool _, .str _ => isFalse (fun h => nomatch h)
  | .bool _, .arr _ => isFalse (fun h => nomatch h)
  | .bool _, .obj _ => isFalse (fun h => nomatch h)
  | .num _, .null => isFalse (fun h => nomatch h)
  | .num _, .bool _ => isFalse (fun h => nomatch h)
  | .num _, .str _ => isFalse (fun h => nomatch h)
  | .num _, .arr _ => isFalse (fun h => nomatch h)
  | .num _, .obj _ => isFalse (fun h => nomatch h)
  | .str _, .null => isFalse (fun h => nomatch h)
  | .str _, .bool _ => isFalse (fun h => nomatch h)
  | .str _, .num _ => isFalse (fun h => nomatch h)
  | .str _, .arr _ => isFalse (fun h => nomatch h)
  | .str _, .obj _ => isFalse (fun h => nomatch h)
  | .arr _, .null => isFalse (fun h => nomatch h)
  | .arr _, .bool _ => isFalse (fun h => nomatch h)
  | .arr _, .num _ => isFalse (fun h => nomatch h)
  | .arr _, .str _ => isFalse (fun h => nomatch h)
  | .arr _, .obj _ => isFalse (fun h => nomatch h)
  | .obj _, .null => isFalse (fun h => nomatch h)
  | .obj _, .bool _ => isFalse (fun h => nomatch h)
  | .obj _, .num _ => isFalse (fun h => nomatch h)
  | .obj _, .str _ => isFalse (fun h => nomatch h)
  | .obj _, .arr _ => isFalse (fun h => nomatch h)

/-- Decidable equality of JSON value lists. -/
def Json.decEqList : (a b : List Json) → Decidable (a = b)
  | [], [] => isTrue rfl
  | [], _ :: _ => isFalse (fun h => nomatch h)
  | _ :: _, [] => isFalse (fun h => nomatch h)
  | x :: xs, y :: ys =>
    match Json.decEq x y with
    | isTrue h1 =>
      match Json.decEqList xs ys with
      | isTrue h2 => isTrue (by rw [h1, h2])
      | isFalse h2 => isFalse (by intro hc; injection hc; contradiction)
    | isFalse h1 => isFalse (by intro hc; injection hc; contradiction)

/-- Decidable equality of JSON object field lists. -/
def Json.decEqFields : (a b : List (List Char × Json)) → Decidable (a = b)
  | [], [] => isTrue rfl
  | [], _ :: _ => isFalse (fun h => nomatch h)
  | _ :: _, [] => isFalse (fun h => nomatch h)
  | (k1, v1) :: xs, (k2, v2) :: ys =>
    if hk : k1 = k2 then
      match Json.decEq v1 v2 with
      | isTrue h1 =>
        match Json.decEqFields xs ys with
        | isTrue h2 => isTrue (by rw [hk, h1, h2])
        | isFalse h2 => isFalse (by intro hc; injection hc; contradiction)
      | isFalse h1 =>
        isFalse (by
          intro hc; injection hc with hh ht
          exact h1 (congrArg Prod.snd hh))
    else
      isFalse (by
        intro hc; injection hc with hh ht
        exact hk (congrArg Prod.fst hh))

end

instance : DecidableEq Json := Json.decEq

/-- JavaScript truthiness of a JSON value (used by the guards in
processLine: chunkId, choices, choices[0], delta, field values). -/
def truthy : Json → Bool
  | .null => false
  | .bool b => b
  | .num n => n != 0
  | .str s => !s.isEmpty
  | .arr _ => true
  | .obj _ => true

/-- Property access on a parsed JSON value: `j.k` in JavaScript.  Returns
none when the value is not an object or the key is absent (JavaScript
undefined).  With duplicate keys JSON.parse keeps the last one, hence the
lookup takes the last binding. -/
def getField (key : List Char) (j : Json) : Option Json :=
  match j with
  | .obj fields => (fields.filter fun kv => kv.1 == key).getLast?.map Prod.snd
  | _ => none

/-!
Model of JSON.parse, fuel-based recursive descent.  The fuel passed by
parseJson is generous for every payload this protocol carries; running out of
fuel yields none, i.e. the frame is treated as malformed.
-/

/-- Whitespace skipping inside JSON text. -/
def skipWs : List Char → List Char := trimLeft

/-- Numeric value of a hexadecimal digit, written over code points. -/
def hexVal (c : Char) : Option Nat :=
  let n := c.toNat
  if 48 ≤ n && n ≤ 57 then some (n - 48)
  else if 97 ≤ n && n ≤ 102 then some (n - 87)
  else if 65 ≤ n && n ≤ 70 then some (n - 55)
  else none

/-- Parse the body of a JSON string literal, after the opening quote.
Returns the decoded characters and the input after the closing quote.
Escapes are decoded as by JSON.parse; raw control characters are rejected. -/
def parseStringBody : Nat → List Char → Option (List Char × List Char)
  | 0, _ => none
  | _, [] => none
  | n + 1, c :: cs =>
    if c = '"' then some ([], cs)
    else if c = '\\' then
      match cs with
      | [] => none
      | e :: cs' =>
        let dec : Option (Char × List Char) :=
          if e = '"' then some ('"', cs')
          else if e = '\\' then some ('\\', cs')
          else if e = '/' then some ('/', cs')
          else if e = 'b' then some (Char.ofNat 8, cs')
          else if e = 'f' then some (Char.ofNat 12, cs')
          else if e = 'n' then some ('\n', cs')
          else if e = 'r' then some ('\r', cs')
          else if e = 't' then some ('\t', cs')
          else if e = 'u' then
            match cs' with
            | h1 :: h2 :: h3 :: h4 :: cs'' =>
              match hexVal h1, hexVal h2, hexVal h3, hexVal h4 with
              | some v1, some v2, some v3, some v4 =>
                some (Char.ofNat (((v1 * 16 + v2) * 16 + v3) * 16 + v4), cs'')
              | _, _, _, _ => none
            | _ => none
          else none
        match dec with
        | some (d, rest) => (parseStringBody n rest).map fun q => (d :: q.1, q.2)
        | none => none
    else if c.toNat < 32 then none
    else (parseStringBody n cs).map fun q => (c :: q.1, q.2)

/-- Parse an unsigned decimal integer literal (at least one digit). -/
def parseNat : List Char → Option (Nat × List Char)
  | cs =>
    let digits := cs.takeWhile isDigitAZ
    if digits.isEmpty then none
    else some (digits.foldl (fun acc c => acc * 10 + (c.toNat - '0'.toNat)) 0,
               cs.dropWhile isDigitAZ)

mutual

/-- Parse one JSON value (recursive descent over the grammar accepted by
JSON.parse, with integer-only numbers). -/
def parseValue : Nat → List Char → Option (Json × List Char)
  | 0, _ => none
  | n + 1, cs =>
    match skipWs cs with
    | [] => none
    | c :: rest =>
      if c = lbrace then
        match skipWs rest with
        | d :: rest' =>
          if d = rbrace then some (.obj [], rest')
          else parseMembers n (d :: rest') []
        | [] => none
      else if c = '[' then
        match skipWs rest with
        | ']' :: rest' => some (.arr [], rest')
        | other => parseElements n other []
      else if c = '"' then
        (parseStringBody (n + 1) rest).map fun q => (.str q.1, q.2)
      else if c = 't' then
        match rest with
        | 'r' :: 'u' :: 'e' :: rest' => some (.bool true, rest')
        | _ => none
      else if c = 'f' then
        match rest with
        | 'a' :: 'l' :: 's' :: 'e' :: rest' => some (.bool false, rest')
        | _ => none
      else if c = 'n' then
        match rest with
        | 'u' :: 'l' :: 'l' :: rest' => some (.null, rest')
        | _ => none
      else if c = '-' then
        (parseNat rest).map fun q => (.num (-(q.1 : Int)), q.2)
      else if isDigitAZ c then
        (parseNat (c :: rest)).map fun q => (.num (q.1 : Int), q.2)
      else none

/-- Parse the members of a JSON object, starting at the first key. -/
def parseMembers : Nat → List Char → List (List Char × Json) →
    Option (Json × List Char)
  | 0, _, _ => none
  | n + 1, cs, acc =>
    match skipWs cs with
    | '"' :: rest =>
      match parseStringBody (n + 1) rest with
      | some (key, afterKey) =>
        match skipWs afterKey with
        | ':' :: afterColon =>
          match parseValue n afterColon with
          | some (v, afterVal) =>
            match skipWs afterVal with
            | ',' :: afterComma => parseMembers n afterComma (acc ++ [(key, v)])
            | d :: rest' =>
              if d = rbrace then some (.obj (acc ++ [(key, v)]), rest')
              else none
            | [] => none
          | none => none
        | _ => none
      | none => none
    | _ => none

/-- Parse the elements of a JSON array, starting at the first element. -/
def parseElements : Nat → List Char → List Json → Option (Json × List Char)
  | 0, _, _ => none
  | n + 1, cs, acc =>
    match parseValue n cs with
    | some (v, afterVal) =>
      match skipWs afterVal with
      | ',' :: afterComma => parseElements n afterComma (acc ++ [v])
      | ']' :: rest' => some (.arr (acc ++ [v]), rest')
      | _ => none
    | none => none

end

/-- Model of JSON.parse as used by processLine: parse one value and require
the rest of the input to be whitespace; any failure is the thrown-and-caught
SyntaxError, modelled as none. -/
def parseJson (s : List Char) : Option Json :=
  match parseValue (4 * s.length + 4) s with
  | some (j, rest) => if (skipWs rest).isEmpty then some j else none
  | none => none

/-!
Frame decoder, from api.ts processLine (lines 131-198).
-/

/-- The StreamChunk interface of api.ts: the delta emitted to the caller.
Each field is present only when non-empty, exactly as built by processLine.
Tool events are carried as the raw JSON array elements, as in the source,
where executed_tools is passed through wholesale. -/
structure StreamChunk where
  reasoning : Option (List Char) := none
  executed_tools : Option (List Json) := none
  content : Option (List Char) := none
deriving DecidableEq

/-- The empty chunk: no channel present. -/
def StreamChunk.isEmpty (c : StreamChunk) : Bool :=
  c.reasoning = none && c.executed_tools = none && c.content = none

/-- The id used for de-duplication: json.id when it is truthy, none otherwise
(the code guards both the Set.has check and the Set.add with plain
truthiness of chunkId). -/
def idTruthy (j : Json) : Option Json :=
  match getField (str "id") j with
  | some v => if truthy v then some v else none
  | none => none

/-- Extraction of choices[0].delta (api.ts line 164): json.choices must be a
truthy array whose first element is truthy and has a truthy delta field. -/
def deltaOfJson (j : Json) : Option Json :=
  match getField (str "choices") j with
  | some (.arr (c0 :: _)) =>
    if truthy c0 then
      match getField (str "delta") c0 with
      | some d => if truthy d then some d else none
      | none => none
    else none
  | _ => none

/-- Field extraction from the delta (api.ts lines 169-179): only a non-empty
string becomes reasoning or content, only a non-empty array becomes
executed_tools. -/
def buildChunk (d : Json) : StreamChunk :=
  let r : Option (List Char) :=
    match getField (str "reasoning") d with
    | some (.str s) => if s.length > 0 then some s else none
    | _ => none
  let t : Option (List Json) :=
    match getField (str "executed_tools") d with
    | some (.arr ts) => if ts.length > 0 then some ts else none
    | _ => none
  let c : Option (List Char) :=
    match getField (str "content") d with
    | some (.str s) => if s.length > 0 then some s else none
    | _ => none
  { reasoning := r, executed_tools := t, content := c }

/-- The chunk a parsed payload yields, or none when the delta shape is absent
or every channel is empty (in which case onChunk is not called and the id is
not recorded). -/
def chunkOfJson (j : Json) : Option StreamChunk :=
  match deltaOfJson j with
  | some d =>
    let c := buildChunk d
    if c.isEmpty then none else some c
  | none => none

/-- Result of processing one line: the chunk handed to onChunk if any, the
updated processed-id set, and whether the line was the completion sentinel. -/
structure ProcResult where
  emitted : Option StreamChunk
  ids : List Json
  done : Bool
deriving DecidableEq

/-- api.ts processLine: recognize a data frame, handle the [DONE] sentinel,
parse the payload as JSON (a parse failure is caught and the frame ignored),
drop frames whose truthy id was already processed, extract the delta, build
the chunk from the non-empty channels, and record the id only when a
non-empty chunk is emitted. -/
def processLine (line : List Char) (ids : List Json) : ProcResult :=
  if startsWithL (str "data: ") line then
    let data := trimList (line.drop 6)
    if data.isEmpty then ⟨none, ids, false⟩
    else if data = str "[DONE]" then ⟨none, ids, true⟩
    else
      match parseJson data with
      | none => ⟨none, ids, false⟩
      | some j =>
        match idTruthy j with
        | some v =>
          if v ∈ ids then ⟨none, ids, false⟩
          else
            match chunkOfJson j with
            | some c => ⟨some c, v :: ids, false⟩
            | none => ⟨none, ids, false⟩
        | none =>
          match chunkOfJson j with
          | some c => ⟨some c, ids, false⟩
          | none => ⟨none, ids, false⟩
  else ⟨none, ids, false⟩

/-!
Text normalizer and word-merge repair, from App.tsx.
-/

/-- Remove every occurrence of the pattern `p` from `s`: model of
String.prototype.replace with a global regex whose pattern is a literal
string and whose replacement is the empty string. -/
def removeAllSubGo : Nat → List Char → List Char → List Char
  | 0, _, s => s
  | n + 1, p, s =>
    match splitOnce p s with
    | none => s
    | some (a, b) => a ++ removeAllSubGo n p b

/-- Removal of every occurrence at its input; the fuel equals the input
length, which every removed occurrence of the non-empty pattern strictly
consumes, so it never runs out. -/
def removeAllSub (p : List Char) (s : List Char) : List Char :=
  if p.isEmpty then s else removeAllSubGo s.length p s

/-- Remove the first occurrence of the pattern `p` from `s`: model of
String.prototype.replace with a plain-string pattern and empty replacement,
as used to delete each matched output span from the reasoning text. -/
def removeFirst (p : List Char) (s : List Char) : List Char :=
  match splitOnce p s with
  | none => s
  | some (a, b) => a ++ b

/-- Tag stripping of App.tsx lines 230-235, in source order: the global
replaces remove every occurrence of the closing tool tag, the opening and
closing think tags, the opening think tag once more (the line whose comment
says it removes the opening redacted tag), and the closing
redacted-reasoning tag.  The opening redacted-reasoning tag is not in the
list. -/
def stripTags (s : List Char) : List Char :=
  removeAllSub (str "</redacted_reasoning>")
    (removeAllSub (str "<think>")
      (removeAllSub (str "</think>")
        (removeAllSub (str "<think>")
          (removeAllSub (str "</tool>") s))))

/-- All matches of the global regex with an "output" open tag, a lazy dot-all
body, and an "output" close tag (App.tsx line 238).  The s flag makes the
dot match newlines, which the substring search does anyway; there is no i
flag, so the tags are matched exactly.  Each returned element is the full
matched substring, as String.prototype.match with a global flag returns. -/
def matchOutputsGo : Nat → List Char → List (List Char)
  | 0, _ => []
  | n + 1, s =>
    match splitOnce (str "<output>") s with
    | none => []
    | some (_, afterOpen) =>
      match splitOnce (str "</output>") afterOpen with
      | none => []
      | some (inner, afterClose) =>
        (str "<output>" ++ inner ++ str "</output>") :: matchOutputsGo n afterClose

/-- The global match at its input; the fuel equals the input length, which
every match strictly consumes, so it never runs out. -/
def matchOutputs (s : List Char) : List (List Char) :=
  matchOutputsGo s.length s

/-- The capture group of the non-global re-match of one full output match
(App.tsx line 251): the text between the first open tag and the first close
tag after it. -/
def innerOfMatch (m : List Char) : Option (List Char) :=
  match splitOnce (str "<output>") m with
  | none => none
  | some (_, afterOpen) => (splitOnce (str "</output>") afterOpen).map Prod.fst

/-- The removal loop of App.tsx lines 243-245: each full match is deleted
from the reasoning text by a first-occurrence replace. -/
def removeMatches (s : List Char) (ms : List (List Char)) : List Char :=
  ms.foldl (fun acc m => removeFirst m acc) s

/-- One pass of the camel-case rule: the global regex replacing a lowercase
letter followed by an uppercase letter with the two letters separated by a
space (App.tsx line 51).  Scanning resumes after each match, as a global
regex does. -/
def camelFix : List Char → List Char
  | [] => []
  | [c] => [c]
  | a :: b :: rest =>
    if isLowerAZ a && isUpperAZ b then a :: ' ' :: b :: camelFix rest
    else a :: camelFix (b :: rest)

/-- The "willI" rule: the global case-sensitive regex replacing a lowercase
letter, a capital I, and a lowercase letter with the same three characters
space-separated (App.tsx line 55). -/
def fixI : List Char → List Char
  | a :: b :: c :: rest =>
    if isLowerAZ a && b = 'I' && isLowerAZ c then
      a :: ' ' :: 'I' :: ' ' :: c :: fixI rest
    else a :: fixI (b :: c :: rest)
  | s => s

/-- Case-insensitive match of a lowercase pattern word at the start of the
input, returning the original characters consumed and the rest. -/
def matchWordCI : List Char → List Char → Option (List Char × List Char)
  | [], s => some ([], s)
  | _ :: _, [] => none
  | w :: ws, c :: cs =>
    if lowerAZ c = w then (matchWordCI ws cs).map fun q => (c :: q.1, q.2)
    else none

/-- The alternation of the short-word rule, in source order.  No word of the
list is a prefix of another, so at most one alternative can match at a given
position and alternation order does not matter. -/
def shortWordList : List (List Char) :=
  [str "will", str "can", str "should", str "would", str "may", str "might"]

/-- First alternative of the list matching at the start of the input. -/
def tryWords : List (List Char) → List Char → Option (List Char × List Char)
  | [], _ => none
  | w :: ws, s =>
    match matchWordCI w s with
    | some r => some r
    | none => tryWords ws s

theorem matchWordCI_le :
    ∀ w s o r, matchWordCI w s = some (o, r) → r.length ≤ s.length := by
  intro w
  induction w with
  | nil =>
    intro s o r h
    simp only [matchWordCI, Option.some.injEq, Prod.mk.injEq] at h
    obtain ⟨_, hr⟩ := h
    subst hr
    exact Nat.le_refl _
  | cons c cs ih =>
    intro s o r h
    cases s with
    | nil => simp [matchWordCI] at h
    | cons d ds =>
      simp only [matchWordCI] at h
      by_cases hc : lowerAZ d = c
      · rw [if_pos hc] at h
        cases hrec : matchWordCI cs ds with
        | none => rw [hrec] at h; simp at h
        | some q =>
          rw [hrec] at h
          obtain ⟨o', r'⟩ := q
          simp only [Option.map_some', Option.some.injEq, Prod.mk.injEq] at h
          obtain ⟨_, hr⟩ := h
          subst hr
          have := ih ds o' r' hrec
          simp only [List.length_cons]
          omega
      · rw [if_neg hc] at h
        simp at h

theorem tryWords_le :
    ∀ ws s o r, tryWords ws s = some (o, r) → r.length ≤ s.length := by
  intro ws
  induction ws with
  | nil => intro s o r h; simp [tryWords] at h
  | cons w ws ih =>
    intro s o r h
    simp only [tryWords] at h
    cases hm : matchWordCI w s with
    | none => rw [hm] at h; exact ih s o r h
    | some q =>
      rw [hm] at h
      obtain ⟨o', r'⟩ := q
      simp only [Option.some.injEq, Prod.mk.injEq] at h
      obtain ⟨_, hr⟩ := h
      subst hr
      exact matchWordCI_le w s o' r' hm

/-- The short-word rule: the global case-insensitive regex replacing a
letter, one of the short words, and a letter with the same text
space-separated (App.tsx line 56).  Under the i flag the letter classes
match both cases and the replacement keeps the captured original text.
Scanning resumes after each full match, so the trailing captured letter is
consumed and cannot start the next match. -/
def fixShortWordsGo : Nat → List Char → List Char
  | 0, s => s
  | _, [] => []
  | n + 1, a :: rest =>
    if isLetterAZ a then
      match tryWords shortWordList rest with
      | some (orig, b :: rest') =>
        if isLetterAZ b then a :: ' ' :: (orig ++ ' ' :: b :: fixShortWordsGo n rest')
        else a :: fixShortWordsGo n rest
      | some (_, []) => a :: fixShortWordsGo n rest
      | none => a :: fixShortWordsGo n rest
    else a :: fixShortWordsGo n rest

/-- The short-word pass at its input; the fuel equals the input length, which
every scanning step strictly consumes, so it never runs out. -/
def fixShortWords (s : List Char) : List Char := fixShortWordsGo s.length s

/-- App.tsx addSpaceBetweenWords (lines 48-59): the camel-case pass, then
the capital-I pass, then the short-word pass. -/
def addSpaceBetweenWords (s : List Char) : List Char :=
  fixShortWords (fixI (camelFix s))

/-!
Block assembler, from the onChunk callback in App.tsx handleSendWithAudio
(lines 216-356).
-/

/-- The MessageBlock variant of App.tsx: a reasoning text block, a tool
block holding the raw tool event value, or a content text block. -/
inductive Block where
  | reasoning (text : List Char) : Block
  | tool (ev : Json) : Block
  | content (text : List Char) : Block
deriving DecidableEq

/-- The index property of a tool event (tool.index), as read both by the
tool-channel de-duplication set and left as undefined when absent. -/
def toolIndex (ev : Json) : Option Json := getField (str "index") ev

/-- The synthetic tool event pushed for an extracted output span
(App.tsx lines 263-270): index -1, type "output", the trimmed span text. -/
def mkOutputTool (oc : List Char) : Json :=
  .obj [(str "index", .num (-1)), (str "type", .str (str "output")),
        (str "output", .str oc)]

/-- The duplicate test for synthetic output blocks (App.tsx lines 256-260):
an existing tool block whose type is "output" and whose output equals the
candidate text. -/
def isOutputBlockWith (oc : List Char) (b : Block) : Bool :=
  match b with
  | .tool ev =>
    getField (str "type") ev == some (.str (str "output")) &&
    getField (str "output") ev == some (.str oc)
  | _ => false

/-- The creation loop over the output matches (App.tsx lines 249-275): for
each match, re-extract and trim the inner text; if non-empty and no existing
output block carries the same text, push a synthetic tool block. -/
def pushOutputs : List Block → Bool → List (List Char) → List Block × Bool
  | blocks, ch, [] => (blocks, ch)
  | blocks, ch, m :: ms =>
    match innerOfMatch m with
    | some inner =>
      let oc := trimList inner
      if oc.length > 0 then
        if blocks.any (isOutputBlockWith oc) then pushOutputs blocks ch ms
        else pushOutputs (blocks ++ [.tool (mkOutputTool oc)]) true ms
      else pushOutputs blocks ch ms
    | none => pushOutputs blocks ch ms

/-- The needsSpace test (App.tsx lines 283-289): last character of the
existing reasoning text and first character of the new fragment both
alphanumeric and neither a space. -/
def needsSpace (prev frag : List Char) : Bool :=
  match prev.getLast?, frag.head? with
  | some a, some b => isAlnum a && isAlnum b && a ≠ ' ' && b ≠ ' '
  | _, _ => false

/-- The reasoning channel append (App.tsx lines 278-305): extend the last
block when it is a reasoning block, inserting a separating space when
needsSpace holds and re-running the repair over the combined text; otherwise
push a new reasoning block with the repair applied to the fragment. -/
def appendReasoning (blocks : List Block) (frag : List Char) : List Block :=
  match blocks.getLast? with
  | some (.reasoning prev) =>
    let sep : List Char := if needsSpace prev frag then [' '] else []
    blocks.dropLast ++ [.reasoning (addSpaceBetweenWords (prev ++ sep ++ frag))]
  | _ => blocks ++ [.reasoning (addSpaceBetweenWords frag)]

/-- The content channel append (App.tsx lines 327-341): extend the last
block when it is a content block, by plain concatenation with no repair;
otherwise push a new content block. -/
def appendContent (blocks : List Block) (frag : List Char) : List Block :=
  match blocks.getLast? with
  | some (.content prev) => blocks.dropLast ++ [.content (prev ++ frag)]
  | _ => blocks ++ [.content frag]

/-- The index values of all tool blocks, the contents of the
existingToolIndices set (App.tsx lines 312-316). -/
def toolIndexValues (blocks : List Block) : List (Option Json) :=
  blocks.filterMap fun b =>
    match b with
    | .tool ev => some (toolIndex ev)
    | _ => none

/-- The tool-channel loop (App.tsx lines 317-323): push each arriving tool
event whose index is not in the set, recording the index. -/
def addTools : List Block → List (Option Json) → Bool → List Json →
    List Block × Bool
  | blocks, _, ch, [] => (blocks, ch)
  | blocks, seen, ch, ev :: rest =>
    if toolIndex ev ∈ seen then addTools blocks seen ch rest
    else addTools (blocks ++ [.tool ev]) (seen ++ [toolIndex ev]) true rest

/-- One transition of the assembler: fold one emitted chunk into the block
list, returning the new blocks and the hasChanges flag of the callback. -/
def applyChunk (blocks : List Block) (c : StreamChunk) : List Block × Bool :=
  let step1 : List Block × Bool :=
    match c.reasoning with
    | some r =>
      if r.length > 0 then
        let cleaned := stripTags r
        let ms := matchOutputs cleaned
        if ms.isEmpty then
          if cleaned.length > 0 then (appendReasoning blocks cleaned, true)
          else (blocks, false)
        else
          let rwo := trimList (removeMatches cleaned ms)
          let pushed := pushOutputs blocks false ms
          if rwo.length > 0 then (appendReasoning pushed.1 rwo, true)
          else pushed
      else (blocks, false)
    | none => (blocks, false)
  let step2 : List Block × Bool :=
    match c.executed_tools with
    | some ts =>
      if ts.length > 0 then addTools step1.1 (toolIndexValues step1.1) false ts
      else (step1.1, false)
    | none => (step1.1, false)
  let step3 : List Block × Bool :=
    match c.content with
    | some t =>
      if t.length > 0 then (appendContent step2.1 t, true)
      else (step2.1, false)
    | none => (step2.1, false)
  (step3.1, step1.2 || step2.2 || step3.2)

/-- The transcript assembled from a sequence of emitted chunks, starting
from the empty block list of a fresh assistant turn. -/
def assemble (evs : List StreamChunk) : List Block :=
  evs.foldl (fun bs c => (applyChunk bs c).1) []

/-- Joint state of the decoder's processed-id set and the assembler's
transcript when raw lines are fed one at a time. -/
structure DecState where
  ids : List Json
  blocks : List Block
deriving DecidableEq

/-- Feed one raw line: run processLine and fold the emitted chunk, if any,
into the transcript. -/
def feedLine (s : DecState) (line : List Char) : DecState :=
  let r := processLine line s.ids
  match r.emitted with
  | some c => ⟨r.ids, (applyChunk s.blocks c).1⟩
  | none => ⟨r.ids, s.blocks⟩

/-- Feed a sequence of raw lines in order. -/
def feedLines (s : DecState) (ls : List (List Char)) : DecState :=
  ls.foldl feedLine s

/-!
Streaming read loop, from api.ts askQuestionStream (lines 77-125).
-/

/-- State of one streaming turn: the line buffer, the isComplete flag, the
processed-id set, the ordered list of chunks handed to onChunk, and the
number of completion notifications delivered to onComplete. -/
structure SState where
  buffer : List Char
  isComplete : Bool
  ids : List Json
  events : List StreamChunk
  completions : Nat
deriving DecidableEq

/-- The fresh state at the start of a turn. -/
def initSState : SState :=
  { buffer := [], isComplete := false, ids := [], events := [], completions := 0 }

/-- Split the buffer at its first newline: buffer.indexOf of a newline
followed by the two slices. -/
def splitAtNewline : List Char → Option (List Char × List Char)
  | [] => none
  | c :: cs =>
    if c = '\n' then some ([], cs)
    else (splitAtNewline cs).map fun q => (c :: q.1, q.2)

/-- The inner while loop of askQuestionStream (lines 109-124): extract each
complete line, skip blank lines, run processLine on the trimmed line; on the
completion sentinel the callback sets isComplete and notifies, the buffer is
cleared and the loop stops.  The fuel equals the buffer length, which every
iteration strictly consumes. -/
def processBufferGo : Nat → SState → SState
  | 0, s => s
  | n + 1, s =>
    match splitAtNewline s.buffer with
    | none => s
    | some (line, rest) =>
      let s1 := { s with buffer := rest }
      let t := trimList line
      if t.isEmpty then processBufferGo n s1
      else
        let r := processLine t s1.ids
        let s2 := { s1 with ids := r.ids, events := s1.events ++ r.emitted.toList }
        if r.done then
          { s2 with isComplete := true, completions := s2.completions + 1,
                    buffer := [] }
        else processBufferGo n s2

/-- Drain all complete lines from the buffer. -/
def processBuffer (s : SState) : SState := processBufferGo s.buffer.length s

/-- Receiving one decoded chunk of bytes: append it to the buffer and drain
complete lines. -/
def recvChunk (s : SState) (c : List Char) : SState :=
  processBuffer { s with buffer := s.buffer ++ c }

/-- The done branch of the read loop (lines 86-98): when the stream ends,
process a remaining non-empty data line with a no-op completion callback,
then notify completion unless the sentinel was already seen. -/
def finishStream (s : SState) : SState :=
  let s1 :=
    if !s.isComplete && !(trimList s.buffer).isEmpty then
      let t := trimList s.buffer
      if startsWithL (str "data: ") t then
        let r := processLine t s.ids
        { s with ids := r.ids, events := s.events ++ r.emitted.toList }
      else s
    else s
  if !s1.isComplete then { s1 with completions := s1.completions + 1 } else s1

/-- A whole turn: feed every network chunk through the read loop, then run
the end-of-stream branch. -/
def runChunks (chunks : List (List Char)) : SState :=
  finishStream (chunks.foldl recvChunk initSState)

/-- Number of tool blocks in the transcript whose index equals `idx`. -/
def countToolIdx (blocks : List Block) (idx : Option Json) : Nat :=
  (blocks.filter fun b =>
    match b with
    | .tool ev => decide (toolIndex ev = idx)
    | _ => false).length

/-!
Theorems.
-/

/-- Claim C4: feeding the assembler exactly the three ordered raw lines of
the end-to-end scenario yields a transcript of exactly one Content block
with text "Hello world"; and in general a content fragment arriving when the
last block is a Content block is concatenated exactly, with no
space-insertion repair. -/
theorem c4_end_to_end :
    (feedLines ⟨[], []⟩
      [str "data: \x7b\"id\":\"1\",\"choices\":[\x7b\"delta\":\x7b\"content\":\"Hello\"\x7d\x7d]\x7d",
       str "data: \x7b\"id\":\"2\",\"choices\":[\x7b\"delta\":\x7b\"content\":\" world\"\x7d\x7d]\x7d",
       str "data: [DONE]"]).blocks = [Block.content (str "Hello world")]
    ∧ ∀ (pre : List Block) (prev : List Char) (c : Char) (t : List Char),
        applyChunk (pre ++ [Block.content prev]) ⟨none, none, some (c :: t)⟩
          = (pre ++ [Block.content (prev ++ c :: t)], true) := by
  constructor
  · decide
  · intro pre prev c t
    simp [applyChunk, appendContent, List.getLast?_concat, List.dropLast_concat]

/-- Claim C8 (code bug evaluation): the tag-stripping pass never removes the
opening redacted-reasoning marker — the line commented as removing the
opening redacted tag strips the think tag a second time instead — so a
reasoning fragment wrapped in the redacted-reasoning tag pair normalizes to
text that still contains the opening marker, which therefore reaches the
rendered transcript. -/
theorem c8_redacted_open_tag_leaks :
    (applyChunk [] ⟨some (str "<redacted_reasoning>hidden</redacted_reasoning>"), none, none⟩).1
      = [Block.reasoning (str "<redacted_reasoning>hidden")]
    ∧ containsSub (str "<redacted_reasoning>")
        (str "<redacted_reasoning>hidden") = true := by
  decide

/-- Claim C9 (counterexample): addSpaceBetweenWords is not idempotent.  On
"xwillxwillx" the short-word pass consumes the trailing letter x of the
first match, so the second glued "will" is untouched on the first
application and repaired only by the second. -/
theorem c9_counterexample :
    addSpaceBetweenWords (addSpaceBetweenWords (str "xwillxwillx"))
      ≠ addSpaceBetweenWords (str "xwillxwillx") := by
  decide

/-- Claim C9 (amended): applying the repair twice can change the text again
— the first application of the short-word pass leaves a glued short word
that the second application then also spaces, so re-application to
already-repaired text is observable. -/
theorem c9_not_idempotent :
    addSpaceBetweenWords (str "xwillxwillx") = str "x will xwillx"
    ∧ addSpaceBetweenWords (str "x will xwillx") = str "x will x will x" := by
  decide

/-- Claim C2 (counterexample): two synthetic output blocks extracted from
reasoning both carry the sentinel index -1 and coexist in the transcript —
synthetic blocks are de-duplicated by output text, not by index — so the
transcript does not have at most one Tool block per distinct index once the
sentinel index is included. -/
theorem c2_counterexample :
    assemble [⟨some (str "<output>A</output>"), none, none⟩,
              ⟨some (str "<output>B</output>"), none, none⟩]
      = [Block.tool (mkOutputTool (str "A")), Block.tool (mkOutputTool (str "B"))]
    ∧ countToolIdx
        (assemble [⟨some (str "<output>A</output>"), none, none⟩,
                   ⟨some (str "<output>B</output>"), none, none⟩])
        (some (.num (-1))) = 2 := by
  decide

/-- Claim C3 (counterexample): the output-span regex has no ignore-case
flag, so a span whose tags differ from the lowercase tags only in letter
case is not extracted: no synthetic Tool block is produced and the tags
remain in the reasoning text. -/
theorem c3_counterexample :
    (applyChunk [] ⟨some (str "a <OUTPUT>R</OUTPUT> b"), none, none⟩).1
      = [Block.reasoning (str "a <OUTPUT>R</OUTPUT> b")] := by
  decide

/-- Claim C1 (counterexample): after the completion sentinel has been
decoded, frames arriving in a later chunk of the same stream are still
processed — the read loop clears only the current chunk's buffer — so a
content delta in a chunk after the sentinel chunk reaches the transcript. -/
theorem c1_counterexample :
    (runChunks [str "data: [DONE]\n",
                str "data: \x7b\"choices\":[\x7b\"delta\":\x7b\"content\":\"X\"\x7d\x7d]\x7d\n"]).events
      = [⟨none, none, some (str "X")⟩]
    ∧ assemble (runChunks [str "data: [DONE]\n",
                str "data: \x7b\"choices\":[\x7b\"delta\":\x7b\"content\":\"X\"\x7d\x7d]\x7d\n"]).events
      ≠ [] := by
  decide

theorem startsWithL_append_self : ∀ p r : List Char, startsWithL p (p ++ r) = true := by
  intro p r
  induction p with
  | nil => rfl
  | cons c cs ih => simp [startsWithL, ih]

/-- Claim C6: a data frame whose payload is not valid JSON is dropped: the
parse failure is caught, processLine emits nothing, records nothing and does
not complete the turn, and the decoder-plus-assembler state is unchanged, so
processing continues with subsequent frames. -/
theorem c6_malformed_frame_ignored
    (s : DecState) (p : List Char)
    (hdone : trimList p ≠ str "[DONE]")
    (hparse : parseJson (trimList p) = none) :
    processLine (str "data: " ++ p) s.ids = ⟨none, s.ids, false⟩
    ∧ feedLine s (str "data: " ++ p) = s := by
  obtain ⟨ids, blocks⟩ := s
  have hstart : startsWithL (str "data: ") (str "data: " ++ p) = true :=
    startsWithL_append_self _ _
  have hdrop : (str "data: " ++ p).drop 6 = p := rfl
  have hproc : processLine (str "data: " ++ p) ids = ⟨none, ids, false⟩ := by
    simp only [processLine, hstart, hdrop, if_true]
    by_cases he : (trimList p).isEmpty
    · simp [he]
    · simp [he, hdone, hparse]
  exact ⟨hproc, by simp [feedLine, hproc]⟩

/-- Claim C6 witness: the payload of the malformed-input-resilience test is
rejected by the JSON parser and leaves the state unchanged. -/
theorem c6_witness :
    trimList (str "\x7bnot valid json") ≠ str "[DONE]"
    ∧ parseJson (trimList (str "\x7bnot valid json")) = none
    ∧ feedLine ⟨[], []⟩ (str "data: " ++ str "\x7bnot valid json") = ⟨[], []⟩ := by
  refine ⟨by decide, by decide, ?_⟩
  exact (c6_malformed_frame_ignored ⟨[], []⟩ (str "\x7bnot valid json")
    (by decide) (by decide)).2

theorem trim_nonempty_of_parse (p : List Char) (j : Json)
    (h : parseJson (trimList p) = some j) : (trimList p).isEmpty = false := by
  cases hie : (trimList p).isEmpty
  · rfl
  · exfalso
    have hnil : trimList p = [] := by
      cases hl : trimList p
      · rfl
      · rw [hl] at hie; simp at hie
    rw [hnil] at h
    have hz : parseJson ([] : List Char) = none := rfl
    rw [hz] at h
    exact Option.noConfusion h

theorem processLine_eq_of_parse (p : List Char) (ids : List Json) (j : Json)
    (h1 : trimList p ≠ str "[DONE]")
    (h2 : parseJson (trimList p) = some j) :
    processLine (str "data: " ++ p) ids =
      (match idTruthy j with
       | some v =>
         if v ∈ ids then ⟨none, ids, false⟩
         else
           match chunkOfJson j with
           | some c => ⟨some c, v :: ids, false⟩
           | none => ⟨none, ids, false⟩
       | none =>
         match chunkOfJson j with
         | some c => ⟨some c, ids, false⟩
         | none => ⟨none, ids, false⟩) := by
  have hstart : startsWithL (str "data: ") (str "data: " ++ p) = true :=
    startsWithL_append_self _ _
  have hdrop : (str "data: " ++ p).drop 6 = p := rfl
  have hne := trim_nonempty_of_parse p j h2
  simp only [processLine, hstart, hdrop, if_true, hne, Bool.false_eq_true,
    if_false, h1, h2]

theorem processLine_ids_mono (l : List Char) (ids : List Json) (x : Json)
    (hx : x ∈ ids) : x ∈ (processLine l ids).ids := by
  simp only [processLine]
  repeat' split
  all_goals simp_all [List.mem_cons]

theorem feedLine_ids_mono (s : DecState) (l : List Char) (x : Json)
    (hx : x ∈ s.ids) : x ∈ (feedLine s l).ids := by
  simp only [feedLine]
  split <;> exact processLine_ids_mono l s.ids x hx

theorem feedLines_ids_mono (ls : List (List Char)) :
    ∀ (s : DecState) (x : Json), x ∈ s.ids → x ∈ (feedLines s ls).ids := by
  induction ls with
  | nil => intro s x hx; exact hx
  | cons l ls ih =>
    intro s x hx
    exact ih (feedLine s l) x (feedLine_ids_mono s l x hx)

theorem feedLine_dup_drop (s : DecState) (p : List Char) (j v : Json)
    (h1 : trimList p ≠ str "[DONE]")
    (h2 : parseJson (trimList p) = some j)
    (h3 : idTruthy j = some v)
    (hv : v ∈ s.ids) :
    feedLine s (str "data: " ++ p) = s := by
  obtain ⟨ids, blocks⟩ := s
  simp only [feedLine, processLine_eq_of_parse p ids j h1 h2, h3] at *
  simp [hv]

theorem feedLine_noop_of_chunk_none (s : DecState) (p : List Char) (j v : Json)
    (h1 : trimList p ≠ str "[DONE]")
    (h2 : parseJson (trimList p) = some j)
    (h3 : idTruthy j = some v)
    (h4 : chunkOfJson j = none) :
    feedLine s (str "data: " ++ p) = s := by
  obtain ⟨ids, blocks⟩ := s
  by_cases hv : v ∈ ids
  · exact feedLine_dup_drop ⟨ids, blocks⟩ p j v h1 h2 h3 hv
  · simp only [feedLine, processLine_eq_of_parse p ids j h1 h2, h3, h4]
    simp [hv]

theorem feedLine_records (s : DecState) (p : List Char) (j v : Json)
    (c : StreamChunk)
    (h1 : trimList p ≠ str "[DONE]")
    (h2 : parseJson (trimList p) = some j)
    (h3 : idTruthy j = some v)
    (h4 : chunkOfJson j = some c) :
    v ∈ (feedLine s (str "data: " ++ p)).ids := by
  obtain ⟨ids, blocks⟩ := s
  by_cases hv : v ∈ ids
  · rw [feedLine_dup_drop ⟨ids, blocks⟩ p j v h1 h2 h3 hv]
    exact hv
  · simp only [feedLine, processLine_eq_of_parse p ids j h1 h2, h3, h4]
    simp [hv]

/-- Claim C7: de-duplication is idempotent.  A data frame with a truthy id,
fed once and then fed again after any other frames, yields the same decoder
and transcript state as feeding it once: when its first processing emitted a
chunk the id was recorded and the repeat is dropped, and when it emitted
nothing the repeat is a no-op for the same intrinsic reason. -/
theorem c7_dedup_idempotent (s : DecState) (pre mid : List (List Char))
    (p : List Char) (j v : Json)
    (h1 : trimList p ≠ str "[DONE]")
    (h2 : parseJson (trimList p) = some j)
    (h3 : idTruthy j = some v) :
    feedLines s (pre ++ (str "data: " ++ p) :: (mid ++ [str "data: " ++ p]))
      = feedLines s (pre ++ (str "data: " ++ p) :: mid) := by
  simp only [feedLines, List.foldl_append, List.foldl_cons, List.foldl_nil]
  set s1 := List.foldl feedLine s pre with hs1
  set s2 := feedLine s1 (str "data: " ++ p) with hs2
  set s3 := List.foldl feedLine s2 mid with hs3
  show feedLine s3 (str "data: " ++ p) = s3
  cases h4 : chunkOfJson j with
  | none => exact feedLine_noop_of_chunk_none s3 p j v h1 h2 h3 h4
  | some c =>
    have hv2 : v ∈ s2.ids := feedLine_records s1 p j v c h1 h2 h3 h4
    have hv3 : v ∈ s3.ids := feedLines_ids_mono mid s2 v hv2
    exact feedLine_dup_drop s3 p j v h1 h2 h3 hv3

/-- Claim C7 witness: a concrete frame with id "9" fed twice with nothing in
between equals feeding it once. -/
theorem c7_witness :
    trimList (str "\x7b\"id\":\"9\",\"choices\":[\x7b\"delta\":\x7b\"content\":\"A\"\x7d\x7d]\x7d") ≠ str "[DONE]"
    ∧ feedLines ⟨[], []⟩
        ([] ++ (str "data: " ++ str "\x7b\"id\":\"9\",\"choices\":[\x7b\"delta\":\x7b\"content\":\"A\"\x7d\x7d]\x7d")
          :: ([] ++ [str "data: " ++ str "\x7b\"id\":\"9\",\"choices\":[\x7b\"delta\":\x7b\"content\":\"A\"\x7d\x7d]\x7d"]))
      = feedLines ⟨[], []⟩
        ([] ++ (str "data: " ++ str "\x7b\"id\":\"9\",\"choices\":[\x7b\"delta\":\x7b\"content\":\"A\"\x7d\x7d]\x7d") :: []) := by
  refine ⟨by decide, ?_⟩
  exact c7_dedup_idempotent ⟨[], []⟩ [] []
    (str "\x7b\"id\":\"9\",\"choices\":[\x7b\"delta\":\x7b\"content\":\"A\"\x7d\x7d]\x7d")
    (.obj [(str "id", .str (str "9")),
           (str "choices", .arr [.obj [(str "delta",
             .obj [(str "content", .str (str "A"))])]])])
    (.str (str "9")) (by decide) (by decide) (by decide)

/-- Claim C10: a delta's id is recorded only when the delta yields a
non-empty channel.  A frame whose delta shape is present but whose
reasoning, executed_tools and content all come out empty emits nothing and
leaves the processed-id set unchanged; a later frame reusing the same truthy
id with a non-empty channel is then still processed and only then is the id
recorded. -/
theorem c10_empty_delta_id_not_recorded
    (ids : List Json) (p p' : List Char) (j j' d : Json) (v : Json)
    (c' : StreamChunk)
    (h1 : trimList p ≠ str "[DONE]")
    (h2 : parseJson (trimList p) = some j)
    (h3 : idTruthy j = some v)
    (hd : deltaOfJson j = some d)
    (hempty : (buildChunk d).isEmpty = true)
    (h1' : trimList p' ≠ str "[DONE]")
    (h2' : parseJson (trimList p') = some j')
    (h3' : idTruthy j' = some v)
    (h4' : chunkOfJson j' = some c')
    (hv : v ∉ ids) :
    processLine (str "data: " ++ p) ids = ⟨none, ids, false⟩
    ∧ processLine (str "data: " ++ p')
        (processLine (str "data: " ++ p) ids).ids = ⟨some c', v :: ids, false⟩ := by
  have h4 : chunkOfJson j = none := by
    simp [chunkOfJson, hd, hempty]
  have first : processLine (str "data: " ++ p) ids = ⟨none, ids, false⟩ := by
    simp only [processLine_eq_of_parse p ids j h1 h2, h3, h4]
    by_cases hv' : v ∈ ids
    · simp [hv']
    · simp [hv']
  refine ⟨first, ?_⟩
  rw [first]
  simp only [processLine_eq_of_parse p' ids j' h1' h2', h3', h4']
  simp [hv]

/-- Claim C10 witness: a frame with id "7" and empty content records
nothing; the follow-up frame with id "7" and content "hi" is processed. -/
theorem c10_witness :
    (processLine (str "data: " ++ str "\x7b\"id\":\"7\",\"choices\":[\x7b\"delta\":\x7b\"content\":\"\"\x7d\x7d]\x7d") []
       = ⟨none, [], false⟩)
    ∧ processLine (str "data: " ++ str "\x7b\"id\":\"7\",\"choices\":[\x7b\"delta\":\x7b\"content\":\"hi\"\x7d\x7d]\x7d")
        (processLine (str "data: " ++ str "\x7b\"id\":\"7\",\"choices\":[\x7b\"delta\":\x7b\"content\":\"\"\x7d\x7d]\x7d") []).ids
      = ⟨some ⟨none, none, some (str "hi")⟩, [.str (str "7")], false⟩ := by
  exact c10_empty_delta_id_not_recorded []
    (str "\x7b\"id\":\"7\",\"choices\":[\x7b\"delta\":\x7b\"content\":\"\"\x7d\x7d]\x7d")
    (str "\x7b\"id\":\"7\",\"choices\":[\x7b\"delta\":\x7b\"content\":\"hi\"\x7d\x7d]\x7d")
    (.obj [(str "id", .str (str "7")),
           (str "choices", .arr [.obj [(str "delta",
             .obj [(str "content", .str [])])]])])
    (.obj [(str "id", .str (str "7")),
           (str "choices", .arr [.obj [(str "delta",
             .obj [(str "content", .str (str "hi"))])]])])
    (.obj [(str "content", .str [])])
    (.str (str "7"))
    ⟨none, none, some (str "hi")⟩
    (by decide) (by decide) (by decide) (by decide) (by decide)
    (by decide) (by decide) (by decide) (by decide) (by decide)

theorem drop_length_append : ∀ (l r : List Char), (l ++ r).drop l.length = r := by
  intro l r
  induction l with
  | nil => rfl
  | cons c cs ih => simpa using ih

theorem splitOnce_self_append (p r : List Char) (hp : p ≠ []) :
    splitOnce p (p ++ r) = some ([], r) := by
  cases p with
  | nil => exact absurd rfl hp
  | cons c cs =>
    have hsw : startsWithL (c :: cs) (c :: (cs ++ r)) = true :=
      startsWithL_append_self (c :: cs) r
    have hd : List.drop (c :: cs).length (c :: (cs ++ r)) = r :=
      drop_length_append (c :: cs) r
    show splitOnce (c :: cs) (c :: (cs ++ r)) = some ([], r)
    simp only [splitOnce]
    rw [if_pos hsw, hd]

theorem splitOnce_append_of_ne_head (a : Char) (pat t u : List Char)
    (ht : ∀ c ∈ t, c ≠ a) :
    splitOnce (a :: pat) (t ++ u)
      = (splitOnce (a :: pat) u).map fun q => (t ++ q.1, q.2) := by
  induction t with
  | nil =>
    simp only [List.nil_append]
    cases h : splitOnce (a :: pat) u with
    | none => simp
    | some q => simp
  | cons c cs ih =>
    have hca : c ≠ a := ht c (List.mem_cons_self c cs)
    have hsw : startsWithL (a :: pat) (c :: (cs ++ u)) = false := by
      simp only [startsWithL, Bool.and_eq_false_iff]
      left
      simp [beq_eq_false_iff_ne]
      exact fun h => hca h.symm
    show splitOnce (a :: pat) (c :: (cs ++ u)) = _
    simp only [splitOnce, hsw, Bool.false_eq_true, if_false]
    rw [ih (fun d hd => ht d (List.mem_cons_of_mem c hd))]
    cases splitOnce (a :: pat) u with
    | none => simp
    | some q => simp

theorem splitOnce_none_of_ne_head (a : Char) (pat t : List Char)
    (ht : ∀ c ∈ t, c ≠ a) :
    splitOnce (a :: pat) t = none := by
  have h := splitOnce_append_of_ne_head a pat t [] ht
  rw [List.append_nil] at h
  rw [h]
  rfl

theorem splitOnce_cons_none (p : List Char) (c : Char) (cs : List Char)
    (h1 : startsWithL p (c :: cs) = false) (h2 : splitOnce p cs = none) :
    splitOnce p (c :: cs) = none := by
  simp [splitOnce, h1, h2]

theorem removeAllSub_eq_self (p s : List Char) (h : splitOnce p s = none) :
    removeAllSub p s = s := by
  unfold removeAllSub
  by_cases hp : p.isEmpty
  · rw [if_pos hp]
  · rw [if_neg hp]
    cases hl : s.length with
    | zero => rfl
    | succ n => simp [removeAllSubGo, h]

theorem matchOutputsGo_nil : ∀ n, matchOutputsGo n [] = [] := by
  intro n
  cases n <;> rfl

theorem matchOutputs_eq_nil (s : List Char)
    (h : splitOnce (str "<output>") s = none) : matchOutputs s = [] := by
  unfold matchOutputs
  cases hl : s.length with
  | zero => rfl
  | succ n => simp [matchOutputsGo, h]

theorem stripTags_eq_self (s : List Char) (h : ∀ c ∈ s, c ≠ '<') :
    stripTags s = s := by
  have h1 : splitOnce (str "</tool>") s = none :=
    splitOnce_none_of_ne_head '<' (str "/tool>") s h
  have h2 : splitOnce (str "<think>") s = none :=
    splitOnce_none_of_ne_head '<' (str "think>") s h
  have h3 : splitOnce (str "</think>") s = none :=
    splitOnce_none_of_ne_head '<' (str "/think>") s h
  have h4 : splitOnce (str "</redacted_reasoning>") s = none :=
    splitOnce_none_of_ne_head '<' (str "/redacted_reasoning>") s h
  unfold stripTags
  rw [removeAllSub_eq_self _ _ h1, removeAllSub_eq_self _ _ h2,
      removeAllSub_eq_self _ _ h3, removeAllSub_eq_self _ _ h2,
      removeAllSub_eq_self _ _ h4]

/-- Claim C5: when a reasoning fragment joins an existing Reasoning block
and the boundary characters are both alphanumeric, one separating space is
inserted before concatenation and the repair runs over the combined text;
and the repair normalizes the fragment "willI" to text containing
"will I". -/
theorem c5_word_merge_repair (pre : List Block) (s : List Char) (a b : Char)
    (t0 : List Char)
    (hlast : s.getLast? = some a)
    (ha : isAlnum a = true) (hb : isAlnum b = true)
    (ht : ∀ c ∈ b :: t0, c ≠ '<') :
    (applyChunk (pre ++ [Block.reasoning s]) ⟨some (b :: t0), none, none⟩).1
      = pre ++ [Block.reasoning (addSpaceBetweenWords (s ++ ' ' :: b :: t0))]
    ∧ containsSub (str "will I") (addSpaceBetweenWords (str "willI")) = true := by
  refine ⟨?_, by decide⟩
  have hclean : stripTags (b :: t0) = b :: t0 := stripTags_eq_self _ ht
  have hms : matchOutputs (b :: t0) = [] :=
    matchOutputs_eq_nil _ (splitOnce_none_of_ne_head '<' (str "output>") _ ht)
  have hna : a ≠ ' ' := fun he => by rw [he] at ha; exact absurd ha (by decide)
  have hnb : b ≠ ' ' := fun he => by rw [he] at hb; exact absurd hb (by decide)
  have hns : needsSpace s (b :: t0) = true := by
    simp [needsSpace, hlast, ha, hb, hna, hnb]
  simp only [applyChunk, hclean, hms]
  simp only [List.isEmpty_nil, if_true, List.length_cons, Nat.zero_lt_succ,
    gt_iff_lt, Nat.lt_irrefl]
  simp only [appendReasoning, List.getLast?_concat, hns, if_true,
    List.dropLast_concat]
  simp

/-- Claim C5 witness: fragment "gather" joining the Reasoning block "To"
gets the separating space, and the result of the repair passes is exactly
"To gather"; never the glued "Togather". -/
theorem c5_witness :
    (applyChunk ([] ++ [Block.reasoning (str "To")])
        ⟨some ('g' :: str "ather"), none, none⟩).1
      = [] ++ [Block.reasoning (addSpaceBetweenWords (str "To" ++ ' ' :: 'g' :: str "ather"))]
    ∧ addSpaceBetweenWords (str "To" ++ ' ' :: 'g' :: str "ather") = str "To gather" := by
  refine ⟨(c5_word_merge_repair [] (str "To") 'o' 'g' (str "ather")
    (by decide) (by decide) (by decide) (by decide)).1, by decide⟩

theorem splitOnce_none_in_wrap (pat' : List Char) (t : List Char)
    (ht : ∀ c ∈ t, c ≠ '<')
    (h1 : startsWithL ('<' :: pat')
        ('<' :: ((str "output>" ++ t) ++ str "</output>")) = false)
    (hc : splitOnce ('<' :: pat') (str "</output>") = none) :
    splitOnce ('<' :: pat') ((str "<output>" ++ t) ++ str "</output>") = none := by
  have hmemO : ∀ c ∈ str "output>", c ≠ '<' := by decide
  show splitOnce ('<' :: pat')
    ('<' :: ((str "output>" ++ t) ++ str "</output>")) = none
  apply splitOnce_cons_none _ _ _ h1
  rw [List.append_assoc]
  rw [splitOnce_append_of_ne_head '<' pat' (str "output>") _ hmemO]
  rw [splitOnce_append_of_ne_head '<' pat' t _ ht]
  rw [hc]
  rfl

theorem stripTags_wrap (t : List Char) (ht : ∀ c ∈ t, c ≠ '<') :
    stripTags ((str "<output>" ++ t) ++ str "</output>")
      = (str "<output>" ++ t) ++ str "</output>" := by
  have p1 : splitOnce (str "</tool>") ((str "<output>" ++ t) ++ str "</output>") = none :=
    splitOnce_none_in_wrap (str "/tool>") t ht rfl (by decide)
  have p2 : splitOnce (str "<think>") ((str "<output>" ++ t) ++ str "</output>") = none :=
    splitOnce_none_in_wrap (str "think>") t ht rfl (by decide)
  have p3 : splitOnce (str "</think>") ((str "<output>" ++ t) ++ str "</output>") = none :=
    splitOnce_none_in_wrap (str "/think>") t ht rfl (by decide)
  have p4 : splitOnce (str "</redacted_reasoning>") ((str "<output>" ++ t) ++ str "</output>") = none :=
    splitOnce_none_in_wrap (str "/redacted_reasoning>") t ht rfl (by decide)
  unfold stripTags
  rw [removeAllSub_eq_self _ _ p1, removeAllSub_eq_self _ _ p2,
      removeAllSub_eq_self _ _ p3, removeAllSub_eq_self _ _ p2,
      removeAllSub_eq_self _ _ p4]

theorem matchOutputs_eq_single (s pre afterOpen inner : List Char)
    (h1 : splitOnce (str "<output>") s = some (pre, afterOpen))
    (h2 : splitOnce (str "</output>") afterOpen = some (inner, [])) :
    matchOutputs s = [str "<output>" ++ inner ++ str "</output>"] := by
  unfold matchOutputs
  cases hl : s.length with
  | zero =>
    have hs : s = [] := List.length_eq_zero.mp hl
    rw [hs] at h1
    have : splitOnce (str "<output>") ([] : List Char) = none := rfl
    rw [this] at h1
    exact Option.noConfusion h1
  | succ n =>
    simp [matchOutputsGo, h1, h2, matchOutputsGo_nil]

/-- Claim C3 (amended): output-span extraction is newline-insensitive but
case-sensitive.  A span wrapped in the exact lowercase tags, with arbitrary
tag-free inner text (newlines included) whose trim is non-empty, is
extracted from a fresh turn's reasoning into a single synthetic Tool block
carrying the trimmed inner text, and nothing of it remains as reasoning. -/
theorem c3_amended_lowercase_extraction (t : List Char)
    (ht : ∀ c ∈ t, c ≠ '<') (hne : trimList t ≠ []) :
    applyChunk [] ⟨some (str "<output>" ++ t ++ str "</output>"), none, none⟩
      = ([Block.tool (mkOutputTool (trimList t))], true) := by
  have hopen : splitOnce (str "<output>") ((str "<output>" ++ t) ++ str "</output>")
      = some ([], t ++ str "</output>") := by
    rw [List.append_assoc]
    exact splitOnce_self_append _ _ (by decide)
  have hcloseSelf : splitOnce (str "</output>") (str "</output>") = some ([], []) := by
    have h := splitOnce_self_append (str "</output>") [] (by decide)
    rwa [List.append_nil] at h
  have hclose : splitOnce (str "</output>") (t ++ str "</output>") = some (t, []) := by
    have h : splitOnce (str "</output>") (t ++ str "</output>")
        = (splitOnce (str "</output>") (str "</output>")).map fun q => (t ++ q.1, q.2) :=
      splitOnce_append_of_ne_head '<' (str "/output>") t _ ht
    rw [hcloseSelf] at h
    simpa using h
  have hms : matchOutputs ((str "<output>" ++ t) ++ str "</output>")
      = [str "<output>" ++ t ++ str "</output>"] :=
    matchOutputs_eq_single _ _ _ _ hopen hclose
  have hwrap := stripTags_wrap t ht
  have hinner : innerOfMatch (str "<output>" ++ t ++ str "</output>") = some t := by
    unfold innerOfMatch
    rw [hopen]
    show Option.map Prod.fst (splitOnce (str "</output>") (t ++ str "</output>")) = some t
    rw [hclose]
    rfl
  have hfull : splitOnce (str "<output>" ++ t ++ str "</output>")
      ((str "<output>" ++ t) ++ str "</output>") = some ([], []) := by
    have h := splitOnce_self_append ((str "<output>" ++ t) ++ str "</output>") []
      (by
        intro he
        have hl := congrArg List.length he
        simp only [List.length_append, List.length_nil] at hl
        have h8 : (str "<output>").length = 8 := rfl
        rw [h8] at hl
        omega)
    rwa [List.append_nil] at h
  have hpush : pushOutputs [] false [str "<output>" ++ t ++ str "</output>"]
      = ([Block.tool (mkOutputTool (trimList t))], true) := by
    simp only [pushOutputs, hinner]
    rw [if_pos (List.length_pos.mpr hne)]
    simp [pushOutputs]
  have hpos : 0 < ((str "<output>" ++ t) ++ str "</output>").length := by
    simp only [List.length_append]
    have h8 : (str "<output>").length = 8 := rfl
    omega
  simp only [applyChunk, hwrap, hms]
  rw [if_pos hpos]
  simp only [List.isEmpty_cons, Bool.false_eq_true, if_false]
  simp only [removeMatches, List.foldl_cons, List.foldl_nil, removeFirst, hfull]
  simp only [List.nil_append, hpush]
  rfl

/-- Claim C3 amended witness: a lowercase-tagged span whose inner text
contains a newline is extracted into the synthetic Tool block. -/
theorem c3_amended_witness :
    applyChunk [] ⟨some (str "<output>" ++ str "A\nB" ++ str "</output>"), none, none⟩
      = ([Block.tool (mkOutputTool (trimList (str "A\nB")))], true) :=
  c3_amended_lowercase_extraction (str "A\nB") (by decide) (by decide)

theorem countToolIdx_append (l1 l2 : List Block) (idx : Option Json) :
    countToolIdx (l1 ++ l2) idx = countToolIdx l1 idx + countToolIdx l2 idx := by
  simp [countToolIdx, List.filter_append]

theorem countToolIdx_tool (ev : Json) (idx : Option Json) :
    countToolIdx [Block.tool ev] idx = if toolIndex ev = idx then 1 else 0 := by
  by_cases h : toolIndex ev = idx <;> simp [countToolIdx, h]

theorem countToolIdx_reasoning (txt : List Char) (idx : Option Json) :
    countToolIdx [Block.reasoning txt] idx = 0 := rfl

theorem countToolIdx_content (txt : List Char) (idx : Option Json) :
    countToolIdx [Block.content txt] idx = 0 := rfl

theorem countToolIdx_mem_values (blocks : List Block) (idx : Option Json)
    (h : 1 ≤ countToolIdx blocks idx) : idx ∈ toolIndexValues blocks := by
  induction blocks with
  | nil => simp [countToolIdx] at h
  | cons b bs ih =>
    cases b with
    | tool ev =>
      by_cases he : toolIndex ev = idx
      · simp [toolIndexValues, he]
      · have hc : countToolIdx (Block.tool ev :: bs) idx = countToolIdx bs idx := by
          simp [countToolIdx, List.filter_cons, he]
        rw [hc] at h
        simp [toolIndexValues]
        right
        simpa [toolIndexValues] using ih h
    | reasoning txt =>
      have hc : countToolIdx (Block.reasoning txt :: bs) idx = countToolIdx bs idx := by
        simp [countToolIdx, List.filter_cons]
      rw [hc] at h
      simpa [toolIndexValues] using ih h
    | content txt =>
      have hc : countToolIdx (Block.content txt :: bs) idx = countToolIdx bs idx := by
        simp [countToolIdx, List.filter_cons]
      rw [hc] at h
      simpa [toolIndexValues] using ih h

theorem toolIndex_mkOutputTool (oc : List Char) :
    toolIndex (mkOutputTool oc) = some (.num (-1)) := rfl

theorem appendReasoning_count (blocks : List Block) (f : List Char)
    (idx : Option Json) :
    countToolIdx (appendReasoning blocks f) idx = countToolIdx blocks idx := by
  unfold appendReasoning
  cases h : blocks.getLast? with
  | none => simp [countToolIdx_append, countToolIdx_reasoning]
  | some b =>
    have hdec : blocks.dropLast ++ [b] = blocks :=
      List.dropLast_append_getLast? b (Option.mem_def.mpr h)
    cases b with
    | reasoning prev =>
      rw [show countToolIdx blocks idx
          = countToolIdx (blocks.dropLast ++ [Block.reasoning prev]) idx from by rw [hdec]]
      simp [countToolIdx_append, countToolIdx_reasoning]
    | tool ev => simp [countToolIdx_append, countToolIdx_reasoning]
    | content txt => simp [countToolIdx_append, countToolIdx_reasoning]

theorem appendContent_count (blocks : List Block) (f : List Char)
    (idx : Option Json) :
    countToolIdx (appendContent blocks f) idx = countToolIdx blocks idx := by
  unfold appendContent
  cases h : blocks.getLast? with
  | none => simp [countToolIdx_append, countToolIdx_content]
  | some b =>
    have hdec : blocks.dropLast ++ [b] = blocks :=
      List.dropLast_append_getLast? b (Option.mem_def.mpr h)
    cases b with
    | content prev =>
      rw [show countToolIdx blocks idx
          = countToolIdx (blocks.dropLast ++ [Block.content prev]) idx from by rw [hdec]]
      simp [countToolIdx_append, countToolIdx_content]
    | tool ev => simp [countToolIdx_append, countToolIdx_content]
    | reasoning txt => simp [countToolIdx_append, countToolIdx_content]

theorem pushOutputs_count (ms : List (List Char)) :
    ∀ (blocks : List Block) (ch : Bool) (idx : Option Json),
      idx ≠ some (.num (-1)) →
      countToolIdx (pushOutputs blocks ch ms).1 idx = countToolIdx blocks idx := by
  induction ms with
  | nil => intro blocks ch idx _; rfl
  | cons m ms ih =>
    intro blocks ch idx hidx
    simp only [pushOutputs]
    cases innerOfMatch m with
    | none => exact ih blocks ch idx hidx
    | some inner =>
      dsimp only
      by_cases hlen : (trimList inner).length > 0
      · rw [if_pos hlen]
        by_cases hdup : blocks.any (isOutputBlockWith (trimList inner)) = true
        · rw [if_pos hdup]
          exact ih blocks ch idx hidx
        · rw [if_neg hdup]
          rw [ih _ true idx hidx]
          rw [countToolIdx_append, countToolIdx_tool, toolIndex_mkOutputTool]
          rw [if_neg (fun h => hidx h.symm)]
          exact Nat.add_zero _
      · rw [if_neg hlen]
        exact ih blocks ch idx hidx

theorem addTools_count (tools : List Json) :
    ∀ (blocks : List Block) (seen : List (Option Json)) (ch : Bool)
      (idx : Option Json),
      (∀ i, 1 ≤ countToolIdx blocks i → i ∈ seen) →
      countToolIdx blocks idx ≤ 1 →
      countToolIdx (addTools blocks seen ch tools).1 idx ≤ 1 := by
  induction tools with
  | nil => intro blocks seen ch idx _ hb; exact hb
  | cons ev rest ih =>
    intro blocks seen ch idx hseen hb
    simp only [addTools]
    by_cases hm : toolIndex ev ∈ seen
    · rw [if_pos hm]
      exact ih blocks seen ch idx hseen hb
    · rw [if_neg hm]
      apply ih
      · intro i hi
        rw [countToolIdx_append, countToolIdx_tool] at hi
        by_cases he : toolIndex ev = i
        · subst he
          exact List.mem_append_right _ (List.mem_singleton_self _)
        · rw [if_neg he] at hi
          simp at hi
          exact List.mem_append_left _ (hseen i hi)
      · rw [countToolIdx_append, countToolIdx_tool]
        by_cases he : toolIndex ev = idx
        · subst he
          have hz : countToolIdx blocks (toolIndex ev) = 0 := by
            by_contra hnz
            exact hm (hseen _ (Nat.one_le_iff_ne_zero.mpr hnz))
          simp [hz]
        · rw [if_neg he]
          simpa using hb

theorem applyChunk_count (blocks : List Block) (c : StreamChunk)
    (hb : ∀ i, i ≠ some (.num (-1)) → countToolIdx blocks i ≤ 1) :
    ∀ i, i ≠ some (.num (-1)) → countToolIdx (applyChunk blocks c).1 i ≤ 1 := by
  intro idx hidx
  unfold applyChunk
  have step1 : ∀ i, i ≠ some (.num (-1)) →
      countToolIdx
        (match c.reasoning with
         | some r =>
           if r.length > 0 then
             let cleaned := stripTags r
             let ms := matchOutputs cleaned
             if ms.isEmpty then
               if cleaned.length > 0 then (appendReasoning blocks cleaned, true)
               else (blocks, false)
             else
               let rwo := trimList (removeMatches cleaned ms)
               let pushed := pushOutputs blocks false ms
               if rwo.length > 0 then (appendReasoning pushed.1 rwo, true)
               else pushed
           else (blocks, false)
         | none => (blocks, false)).1 i ≤ 1 := by
    intro i hi
    cases c.reasoning with
    | none => exact hb i hi
    | some r =>
      by_cases hr : r.length > 0
      · simp only [hr, if_true]
        by_cases hms : (matchOutputs (stripTags r)).isEmpty
        · simp only [hms, if_true]
          by_cases hcl : (stripTags r).length > 0
          · simp only [hcl, if_true, appendReasoning_count]
            exact hb i hi
          · simp only [hcl, if_false]
            exact hb i hi
        · simp only [hms, Bool.false_eq_true, if_false]
          by_cases hrwo : (trimList (removeMatches (stripTags r)
              (matchOutputs (stripTags r)))).length > 0
          · simp only [hrwo, if_true, appendReasoning_count]
            rw [pushOutputs_count _ _ _ _ hi]
            exact hb i hi
          · simp only [hrwo, if_false]
            rw [pushOutputs_count _ _ _ _ hi]
            exact hb i hi
      · simp only [hr, if_false]
        exact hb i hi
  have step2 : ∀ i, i ≠ some (.num (-1)) →
      countToolIdx
        (match c.executed_tools with
         | some ts =>
           if ts.length > 0 then
             addTools
               (match c.reasoning with
                | some r =>
                  if r.length > 0 then
                    let cleaned := stripTags r
                    let ms := matchOutputs cleaned
                    if ms.isEmpty then
                      if cleaned.length > 0 then (appendReasoning blocks cleaned, true)
                      else (blocks, false)
                    else
                      let rwo := trimList (removeMatches cleaned ms)
                      let pushed := pushOutputs blocks false ms
                      if rwo.length > 0 then (appendReasoning pushed.1 rwo, true)
                      else pushed
                  else (blocks, false)
                | none => (blocks, false)).1
               (toolIndexValues
                 (match c.reasoning with
                  | some r =>
                    if r.length > 0 then
                      let cleaned := stripTags r
                      let ms := matchOutputs cleaned
                      if ms.isEmpty then
                        if cleaned.length > 0 then (appendReasoning blocks cleaned, true)
                        else (blocks, false)
                      else
                        let rwo := trimList (removeMatches cleaned ms)
                        let pushed := pushOutputs blocks false ms
                        if rwo.length > 0 then (appendReasoning pushed.1 rwo, true)
                        else pushed
                    else (blocks, false)
                  | none => (blocks, false)).1)
               false ts
           else
             ((match c.reasoning with
               | some r =>
                 if r.length > 0 then
                   let cleaned := stripTags r
                   let ms := matchOutputs cleaned
                   if ms.isEmpty then
                     if cleaned.length > 0 then (appendReasoning blocks cleaned, true)
                     else (blocks, false)
                   else
                     let rwo := trimList (removeMatches cleaned ms)
                     let pushed := pushOutputs blocks false ms
                     if rwo.length > 0 then (appendReasoning pushed.1 rwo, true)
                     else pushed
                 else (blocks, false)
               | none => (blocks, false)).1, false)
         | none =>
           ((match c.reasoning with
             | some r =>
               if r.length > 0 then
                 let cleaned := stripTags r
                 let ms := matchOutputs cleaned
                 if ms.isEmpty then
                   if cleaned.length > 0 then (appendReasoning blocks cleaned, true)
                   else (blocks, false)
                 else
                   let rwo := trimList (removeMatches cleaned ms)
                   let pushed := pushOutputs blocks false ms
                   if rwo.length > 0 then (appendReasoning pushed.1 rwo, true)
                   else pushed
               else (blocks, false)
             | none => (blocks, false)).1, false)).1 i ≤ 1 := by
    intro i hi
    cases c.executed_tools with
    | none => exact step1 i hi
    | some ts =>
      by_cases hts : ts.length > 0
      · simp only [hts, if_true]
        exact addTools_count ts _ _ false i
          (fun k hk => countToolIdx_mem_values _ k hk) (step1 i hi)
      · simp only [hts, if_false]
        exact step1 i hi
  cases hc : c.content with
  | none => simpa [hc] using step2 idx hidx
  | some t =>
    by_cases htl : t.length > 0
    · simp only [hc, htl, if_true, appendContent_count]
      simpa using step2 idx hidx
    · simp only [hc, htl, if_false]
      simpa using step2 idx hidx

/-- Claim C2 (amended): at most one Tool block per distinct index holds for
every index other than the synthetic sentinel: tool-channel events are
de-duplicated against the index set of all existing tool blocks, while
synthetic output blocks all carry index -1 and are de-duplicated by output
text only, so only the sentinel index -1 can repeat. -/
theorem c2_amended_index_unique (evs : List StreamChunk) (idx : Option Json)
    (hidx : idx ≠ some (.num (-1))) :
    countToolIdx (assemble evs) idx ≤ 1 := by
  suffices h : ∀ (blocks : List Block),
      (∀ i, i ≠ some (.num (-1)) → countToolIdx blocks i ≤ 1) →
      ∀ i, i ≠ some (.num (-1)) →
        countToolIdx (evs.foldl (fun bs c => (applyChunk bs c).1) blocks) i ≤ 1 by
    exact h [] (fun i _ => by simp [countToolIdx]) idx hidx
  induction evs with
  | nil => intro blocks hb i hi; exact hb i hi
  | cons c rest ih =>
    intro blocks hb i hi
    exact ih (applyChunk blocks c).1 (applyChunk_count blocks c hb) i hi

/-- Claim C2 amended witness: a fresh turn with no deltas has at most one
tool block at index 0. -/
theorem c2_amended_witness :
    some (Json.num 0) ≠ some (Json.num (-1))
    ∧ countToolIdx (assemble []) (some (Json.num 0)) ≤ 1 :=
  ⟨by decide, c2_amended_index_unique [] (some (Json.num 0)) (by decide)⟩

theorem processBufferGo_done (n : Nat) (s : SState) (rest : List Char)
    (hbuf : s.buffer = str "data: [DONE]\n" ++ rest) :
    processBufferGo (n + 1) s
      = { s with buffer := [], isComplete := true,
                 completions := s.completions + 1 } := by
  obtain ⟨buf, ic, ids, evs, comps⟩ := s
  simp only at hbuf
  subst hbuf
  have hsplit : splitAtNewline (str "data: [DONE]\n" ++ rest)
      = some (str "data: [DONE]", rest) := rfl
  have hproc : ∀ is : List Json, processLine (trimList (str "data: [DONE]")) is
      = ⟨none, is, true⟩ := fun _ => rfl
  simp only [processBufferGo, hsplit, hproc]
  simp
  intro h
  exact absurd h (by decide)

/-- Claim C1 (amended): once the completion sentinel line is at the head of
the buffer, the whole remainder of that chunk's buffer is discarded
unprocessed, exactly one completion notification is delivered, and
end-of-stream after a completed turn adds nothing; frames arriving in later
chunks of the stream are, however, still processed. -/
theorem c1_amended_sentinel_same_chunk (s : SState) (rest : List Char)
    (hs : s.isComplete = false) :
    processBuffer { s with buffer := str "data: [DONE]\n" ++ rest }
      = { s with buffer := [], isComplete := true,
                 completions := s.completions + 1 }
    ∧ ∀ s' : SState, s'.isComplete = true → finishStream s' = s' := by
  constructor
  · have hsucc : (str "data: [DONE]\n" ++ rest).length = (12 + rest.length) + 1 := by
      rw [List.length_append]
      have h13 : (str "data: [DONE]\n").length = 13 := rfl
      omega
    obtain ⟨buf, ic, ids, evs, comps⟩ := s
    show processBufferGo (str "data: [DONE]\n" ++ rest).length _ = _
    rw [hsucc]
    exact processBufferGo_done _ _ rest rfl
  · intro s' hs'
    obtain ⟨buf, ic, ids, evs, comps⟩ := s'
    simp only at hs'
    subst hs'
    simp [finishStream]

/-- Claim C1 amended witness: a chunk that continues with another data line
after the sentinel line is discarded from the sentinel on, with exactly one
completion, and the end-of-stream branch of a completed turn is a no-op. -/
theorem c1_amended_witness :
    processBuffer { initSState with buffer := str "data: [DONE]\n" ++ str "data: junk\n" }
      = { initSState with buffer := [], isComplete := true,
                          completions := initSState.completions + 1 }
    ∧ finishStream { initSState with isComplete := true }
      = { initSState with isComplete := true } :=
  ⟨(c1_amended_sentinel_same_chunk initSState (str "data: junk\n") rfl).1,
   (c1_amended_sentinel_same_chunk initSState (str "data: junk\n") rfl).2
     { initSState with isComplete := true } rfl⟩

end S2P
